import Mathlib

/-!
Verification of the gordpool battery scheduling core
(`pkg/planner`: `inferResolutionMinutes`, `slotsForHours`,
`groupConsecutiveSlots`, `BuildBatterySchedule`).

Modelling conventions:
* `time.Time` instants are rational numbers of minutes since an arbitrary
  epoch; `t.Sub(u).Minutes()` becomes `t - u`, `t.Before(u)` becomes `t < u`,
  and adding `n` minutes becomes `t + n`.
* Go `float64` arithmetic on prices/hours is modelled exactly over `ℚ`.
* Go slices distinguish `nil` from an empty non-nil slice (JSON `null` vs
  `[]`); where that distinction is observable the model uses
  `Option (List α)` with `none` for a `nil` slice.
* `sort.Slice` does not specify the relative order of elements that compare
  equal; the model uses the stable `List.insertionSort` (one admissible
  outcome).
* A Go runtime panic (out-of-range slice bound) and the undefined float→int
  conversion of `±Inf`/`NaN` (division by a zero resolution) are modelled as
  `none` results.
-/

namespace Gordpool

/-- One price observation: timestamp (minutes, model of `time.Time`) and
price in cents/kWh. -/
structure PriceSlot where
  Timestamp : ℚ
  Price : ℚ
  deriving DecidableEq, Repr

/-- Configuration of the battery strategy (`BatteryStrategyParams`). -/
structure BatteryStrategyParams where
  Area : String
  MaxChargeHours : ℚ
  MaxDischargeHours : ℚ
  LastPriceCharged : ℚ
  Epsilon : ℚ
  Market : String
  Currency : String
  deriving DecidableEq, Repr

/-- Output slot (`SlotJSON`); the RFC3339 string rendering of the timestamp
is not modelled (it is injective on instants). -/
structure SlotJSON where
  Timestamp : ℚ
  Price : ℚ
  deriving DecidableEq, Repr

/-- Output interval (`IntervalJSON`). -/
structure IntervalJSON where
  Start : ℚ
  End : ℚ
  AvgPrice : ℚ
  deriving DecidableEq, Repr

/-- Output schedule (`ScheduleJSON`). The interval lists are Go slices that
may be `nil` (`none` here, serialized as JSON `null`); the slot lists are
always built with `make`/literals and hence never `nil`. -/
structure ScheduleJSON where
  Area : String
  LastPriceCharged : ℚ
  Epsilon : ℚ
  ResolutionMinutes : Option ℤ
  ChargeSlots : List SlotJSON
  DischargeSlots : List SlotJSON
  ChargeIntervals : Option (List IntervalJSON)
  DischargeIntervals : Option (List IntervalJSON)
  deriving DecidableEq, Repr

/-- Go `math.Round`: round to nearest, halves away from zero. -/
def goRound (q : ℚ) : ℤ :=
  if q < 0 then -⌊-q + 1/2⌋ else ⌊q + 1/2⌋

/-- Consecutive pairwise timestamp deltas in minutes
(the loop `for i := 1; i < len(prices); i++` in `inferResolutionMinutes`). -/
def timestampDeltas (prices : List PriceSlot) : List ℚ :=
  (prices.zip prices.tail).map fun p => p.2.Timestamp - p.1.Timestamp

/-- `inferResolutionMinutes`: median of the consecutive timestamp deltas,
rounded; fixed default 60 for fewer than two slots. -/
def inferResolutionMinutes (prices : List PriceSlot) : ℤ :=
  if prices.length < 2 then 60
  else
    let deltas := timestampDeltas prices
    let sorted := deltas.insertionSort (· ≤ ·)
    let mid := deltas.length / 2
    let median :=
      if deltas.length % 2 = 0 then (sorted.getD (mid - 1) 0 + sorted.getD mid 0) / 2
      else sorted.getD mid 0
    goRound median

/-- `slotsForHours`: `int(math.Ceil(maxHours*60/float64(resolutionMinutes)))`.
With a zero resolution the division produces `±Inf`/`NaN` and the Go
float→int conversion is undefined: modelled as `none`. -/
def slotsForHours (maxHours : ℚ) (resolutionMinutes : ℤ) : Option ℤ :=
  if resolutionMinutes = 0 then none
  else some ⌈maxHours * 60 / (resolutionMinutes : ℚ)⌉

/-- The slice truncation `if len(c) > maxSlots { c = c[:maxSlots] }`.
A negative bound makes `c[:maxSlots]` panic: modelled as `none`. -/
def truncateCandidates (c : List PriceSlot) (maxSlots : ℤ) : Option (List PriceSlot) :=
  if (c.length : ℤ) > maxSlots then
    if maxSlots < 0 then none else some (c.take maxSlots.toNat)
  else some c

/-- The future filter in `BuildBatterySchedule`:
keep slots with `!p.Timestamp.Before(now)`. -/
def futureFilter (prices : List PriceSlot) (now : ℚ) : List PriceSlot :=
  prices.filter fun p => !decide (p.Timestamp < now)

/-- The discharge threshold: `lastPriceCharged + epsilon`, capped at 8 c/kWh. -/
def dischargeThreshold (params : BatteryStrategyParams) : ℚ :=
  let t := params.LastPriceCharged + params.Epsilon
  if t > 8 then 8 else t

/-- Charge candidate selection: slots with
`params.LastPriceCharged - s.Price >= params.Epsilon`. -/
def chargeCandidates (params : BatteryStrategyParams) (future : List PriceSlot) : List PriceSlot :=
  future.filter fun s => decide (params.LastPriceCharged - s.Price ≥ params.Epsilon)

/-- Discharge candidate selection: slots with `s.Price >= dischargeThreshold`. -/
def dischargeCandidates (params : BatteryStrategyParams) (future : List PriceSlot) : List PriceSlot :=
  future.filter fun s => decide (s.Price ≥ dischargeThreshold params)

/-- `sort.Slice` by `Price` ascending (tie order unspecified in Go; one
admissible outcome). -/
def sortByPriceAsc (l : List PriceSlot) : List PriceSlot :=
  l.insertionSort fun a b => a.Price ≤ b.Price

/-- `sort.Slice` by `Price` descending. -/
def sortByPriceDesc (l : List PriceSlot) : List PriceSlot :=
  l.insertionSort fun a b => b.Price ≤ a.Price

/-- `sort.Slice` by `Timestamp` ascending. -/
def sortByTime (l : List PriceSlot) : List PriceSlot :=
  l.insertionSort fun a b => a.Timestamp ≤ b.Timestamp

/-- The grouping loop of `groupConsecutiveSlots`: `group` is the current run,
`prev` the previously seen slot, `groups` the closed runs so far. -/
def groupRunsGo (step : ℚ) :
    List PriceSlot → PriceSlot → List PriceSlot → List (List PriceSlot) → List (List PriceSlot)
  | [], _, group, groups => groups ++ [group]
  | cur :: rest, prev, group, groups =>
    if cur.Timestamp - prev.Timestamp = step then
      groupRunsGo step rest cur (group ++ [cur]) groups
    else
      groupRunsGo step rest cur [cur] (groups ++ [group])

/-- Partition into runs of step-consecutive slots (`groups` in
`groupConsecutiveSlots`). -/
def groupRuns (slots : List PriceSlot) (step : ℚ) : List (List PriceSlot) :=
  match slots with
  | [] => []
  | s0 :: rest => groupRunsGo step rest s0 [s0] []

/-- Summary of one run: start, end (last + step) and average price. -/
def intervalOfRun (step : ℚ) (g : List PriceSlot) : IntervalJSON :=
  { Start := (g.headD ⟨0, 0⟩).Timestamp
    End := (g.getLastD ⟨0, 0⟩).Timestamp + step
    AvgPrice := (g.map PriceSlot.Price).sum / (g.length : ℚ) }

/-- `groupConsecutiveSlots`. The Go function returns a `nil` slice (JSON
`null`, `none` here) both through the early `return nil` on empty input and
when no interval is appended to the initially-`nil` result. -/
def groupConsecutiveSlots (slots : List PriceSlot) (resolutionMinutes : ℤ) :
    Option (List IntervalJSON) :=
  if slots = [] then none
  else
    let sorted := sortByTime slots
    let step : ℚ := (resolutionMinutes : ℚ)
    let intervals := ((groupRuns sorted step).filter fun g => !g.isEmpty).map (intervalOfRun step)
    if intervals = [] then none else some intervals

/-- `toSlotJSON` (built with `make`, hence never a `nil` slice). -/
def toSlotJSON (slots : List PriceSlot) : List SlotJSON :=
  slots.map fun s => { Timestamp := s.Timestamp, Price := s.Price }

/-- `BuildBatterySchedule`. `none` models a runtime panic (negative slice
bound from a negative slot budget) or the undefined float→int conversion
(zero inferred resolution). -/
def BuildBatterySchedule (prices : List PriceSlot) (params : BatteryStrategyParams)
    (now : ℚ) : Option ScheduleJSON :=
  let future := futureFilter prices now
  if future = [] then
    some { Area := params.Area
           LastPriceCharged := params.LastPriceCharged
           Epsilon := params.Epsilon
           ResolutionMinutes := none
           ChargeSlots := []
           DischargeSlots := []
           ChargeIntervals := some []
           DischargeIntervals := some [] }
  else
    let resolution := inferResolutionMinutes future
    match slotsForHours params.MaxChargeHours resolution,
          slotsForHours params.MaxDischargeHours resolution with
    | some maxChargeSlots, some maxDischargeSlots =>
      let cRanked := sortByPriceAsc (chargeCandidates params future)
      let dRanked := sortByPriceDesc (dischargeCandidates params future)
      match truncateCandidates cRanked maxChargeSlots,
            truncateCandidates dRanked maxDischargeSlots with
      | some cSel, some dSel =>
        let cChrono := sortByTime cSel
        let dChrono := sortByTime dSel
        some { Area := params.Area
               LastPriceCharged := params.LastPriceCharged
               Epsilon := params.Epsilon
               ResolutionMinutes := some resolution
               ChargeSlots := toSlotJSON cChrono
               DischargeSlots := toSlotJSON dChrono
               ChargeIntervals := groupConsecutiveSlots cChrono resolution
               DischargeIntervals := groupConsecutiveSlots dChrono resolution }
      | _, _ => none
    | _, _ => none

/-- Sample input: two future slots, one cheap and one expensive. -/
def sampleSlots : List PriceSlot := [⟨0, 50⟩, ⟨60, 10⟩]

/-- Sample parameters: one hour of charge and discharge budget. -/
def sampleParams : BatteryStrategyParams := ⟨"LV", 1, 1, 20, 3, "DayAhead", "EUR"⟩

/-- The schedule produced for `sampleSlots`/`sampleParams` at `now = 0`. -/
def sampleSchedule : ScheduleJSON :=
  ⟨"LV", 20, 3, some 60, [⟨60, 10⟩], [⟨0, 50⟩], some [⟨60, 120, 10⟩], some [⟨0, 60, 50⟩]⟩

/-- Sample input with no charge candidates: both prices far above the
reference price. -/
def flatSlots : List PriceSlot := [⟨0, 50⟩, ⟨60, 50⟩]

/-- Parameters under which `flatSlots` yields no charge candidates. -/
def flatParams : BatteryStrategyParams := ⟨"LV", 1, 1, 10, 5, "DayAhead", "EUR"⟩

/-- The schedule produced for `flatSlots`/`flatParams` at `now = 0`:
note the `nil` (`none`) charge interval list. -/
def flatSchedule : ScheduleJSON :=
  ⟨"LV", 10, 5, some 60, [], [⟨0, 50⟩], none, some [⟨0, 60, 50⟩]⟩

/-- Statistical median of a list of rationals, as the spec words it:
sort ascending; with an even count average the two middle values, with an
odd count take the middle value. (Junk value 0 on the empty list.) -/
def listMedian (l : List ℚ) : ℚ :=
  let sorted := l.insertionSort (· ≤ ·)
  let mid := l.length / 2
  if l.length % 2 = 0 then (sorted.getD (mid - 1) 0 + sorted.getD mid 0) / 2
  else sorted.getD mid 0

/-- Maximality condition between two adjacent runs: their boundary pair is
not step-consecutive. -/
def runBoundary (step : ℚ) (g g' : List PriceSlot) : Prop :=
  ∀ a ∈ g.getLast?, ∀ b ∈ g'.head?, b.Timestamp ≠ a.Timestamp + step

theorem goRound_intCast (k : ℤ) : goRound (k : ℚ) = k := by
  unfold goRound
  split
  · have h1 : ⌊-(k : ℚ) + 1 / 2⌋ = -k + ⌊(1 : ℚ) / 2⌋ := by
      rw [show -(k : ℚ) = ((-k : ℤ) : ℚ) by push_cast; ring]
      exact Int.floor_int_add _ _
    rw [h1]
    norm_num
  · have h1 : ⌊(k : ℚ) + 1 / 2⌋ = k + ⌊(1 : ℚ) / 2⌋ := Int.floor_int_add _ _
    rw [h1]
    norm_num

theorem replicate_getD (d : ℚ) : ∀ (m i : ℕ), i < m → (List.replicate m d).getD i 0 = d := by
  intro m
  induction m with
  | zero => intro i h; omega
  | succ n ih =>
    intro i h
    rw [List.replicate_succ]
    cases i with
    | zero => rfl
    | succ j => exact ih j (by omega)

theorem truncateCandidates_length_le {c : List PriceSlot} {k : ℤ} {r : List PriceSlot}
    (h : truncateCandidates c k = some r) : (r.length : ℤ) ≤ k := by
  unfold truncateCandidates at h
  split at h
  · split at h
    · exact absurd h (by simp)
    · rename_i hlen hk
      injection h with h2
      subst h2
      simp only [List.length_take]
      omega
  · rename_i hlen
    injection h with h2
    subst h2
    omega

theorem truncateCandidates_isSome {c : List PriceSlot} {k : ℤ} (hk : 0 ≤ k) :
    ∃ r, truncateCandidates c k = some r := by
  unfold truncateCandidates
  split
  · rw [if_neg (by omega)]
    exact ⟨_, rfl⟩
  · exact ⟨_, rfl⟩

theorem truncateCandidates_nil {k : ℤ} {r : List PriceSlot}
    (h : truncateCandidates [] k = some r) : r = [] := by
  unfold truncateCandidates at h
  split at h
  · split at h
    · exact absurd h (by simp)
    · injection h with h2; simp [← h2]
  · injection h with h2; exact h2.symm

theorem slotsForHours_eq_some {h : ℚ} {res : ℤ} {m : ℤ}
    (hs : slotsForHours h res = some m) : res ≠ 0 ∧ m = ⌈h * 60 / (res : ℚ)⌉ := by
  unfold slotsForHours at hs
  split at hs
  · exact absurd hs (by simp)
  · rename_i hres
    injection hs with h2
    exact ⟨hres, h2.symm⟩

theorem slotsForHours_of_ne {h : ℚ} {res : ℤ} (hres : res ≠ 0) :
    slotsForHours h res = some ⌈h * 60 / (res : ℚ)⌉ := by
  unfold slotsForHours
  rw [if_neg hres]

theorem build_empty_future {prices : List PriceSlot} {params : BatteryStrategyParams}
    {now : ℚ} (hfe : futureFilter prices now = []) :
    BuildBatterySchedule prices params now =
      some ⟨params.Area, params.LastPriceCharged, params.Epsilon,
            none, [], [], some [], some []⟩ := by
  unfold BuildBatterySchedule
  rw [if_pos hfe]

theorem build_some_of {prices : List PriceSlot} {params : BatteryStrategyParams}
    {now : ℚ} {mc md : ℤ} {cSel dSel : List PriceSlot}
    (hfe : futureFilter prices now ≠ [])
    (hmc : slotsForHours params.MaxChargeHours
      (inferResolutionMinutes (futureFilter prices now)) = some mc)
    (hmd : slotsForHours params.MaxDischargeHours
      (inferResolutionMinutes (futureFilter prices now)) = some md)
    (hct : truncateCandidates
      (sortByPriceAsc (chargeCandidates params (futureFilter prices now))) mc = some cSel)
    (hdt : truncateCandidates
      (sortByPriceDesc (dischargeCandidates params (futureFilter prices now))) md = some dSel) :
    BuildBatterySchedule prices params now =
      some ⟨params.Area, params.LastPriceCharged, params.Epsilon,
            some (inferResolutionMinutes (futureFilter prices now)),
            toSlotJSON (sortByTime cSel), toSlotJSON (sortByTime dSel),
            groupConsecutiveSlots (sortByTime cSel)
              (inferResolutionMinutes (futureFilter prices now)),
            groupConsecutiveSlots (sortByTime dSel)
              (inferResolutionMinutes (futureFilter prices now))⟩ := by
  unfold BuildBatterySchedule
  rw [if_neg hfe]
  simp only [hmc, hmd, hct, hdt]

theorem build_some_cases {prices : List PriceSlot} {params : BatteryStrategyParams}
    {now : ℚ} {s : ScheduleJSON} (h : BuildBatterySchedule prices params now = some s) :
    (futureFilter prices now = [] ∧
       s = ⟨params.Area, params.LastPriceCharged, params.Epsilon,
            none, [], [], some [], some []⟩) ∨
    (futureFilter prices now ≠ [] ∧
       ∃ mc md cSel dSel,
         slotsForHours params.MaxChargeHours
           (inferResolutionMinutes (futureFilter prices now)) = some mc ∧
         slotsForHours params.MaxDischargeHours
           (inferResolutionMinutes (futureFilter prices now)) = some md ∧
         truncateCandidates
           (sortByPriceAsc (chargeCandidates params (futureFilter prices now))) mc = some cSel ∧
         truncateCandidates
           (sortByPriceDesc (dischargeCandidates params (futureFilter prices now))) md = some dSel ∧
         s = ⟨params.Area, params.LastPriceCharged, params.Epsilon,
              some (inferResolutionMinutes (futureFilter prices now)),
              toSlotJSON (sortByTime cSel), toSlotJSON (sortByTime dSel),
              groupConsecutiveSlots (sortByTime cSel)
                (inferResolutionMinutes (futureFilter prices now)),
              groupConsecutiveSlots (sortByTime dSel)
                (inferResolutionMinutes (futureFilter prices now))⟩) := by
  by_cases hfe : futureFilter prices now = []
  · left
    refine ⟨hfe, ?_⟩
    rw [build_empty_future hfe] at h
    injection h with h2
    exact h2.symm
  · right
    refine ⟨hfe, ?_⟩
    unfold BuildBatterySchedule at h
    rw [if_neg hfe] at h
    rcases hmc : slotsForHours params.MaxChargeHours
        (inferResolutionMinutes (futureFilter prices now)) with _ | mc <;>
      rcases hmd : slotsForHours params.MaxDischargeHours
          (inferResolutionMinutes (futureFilter prices now)) with _ | md <;>
      simp only [hmc, hmd] at h
    · exact absurd h (by simp)
    · exact absurd h (by simp)
    · exact absurd h (by simp)
    · rcases hct : truncateCandidates
          (sortByPriceAsc (chargeCandidates params (futureFilter prices now))) mc
          with _ | cSel <;>
        rcases hdt : truncateCandidates
            (sortByPriceDesc (dischargeCandidates params (futureFilter prices now))) md
            with _ | dSel <;>
        simp only [hct, hdt] at h
      · exact absurd h (by simp)
      · exact absurd h (by simp)
      · exact absurd h (by simp)
      · refine ⟨mc, md, cSel, dSel, rfl, rfl, hct, hdt, ?_⟩
        injection h with h2
        exact h2.symm

/-- C1: a future slot is a charge candidate iff
`lastPriceCharged - price >= epsilon`, and a discharge candidate iff
`price >= min(lastPriceCharged + epsilon, 8)` (the threshold is hard-capped
at 8 cents/kWh); both predicates can hold for one slot (no mutual
exclusion): with `lastPriceCharged = 20, epsilon = 3` a slot priced 10 is
both. With `lastPriceCharged = 10, epsilon = 5` the threshold used is 8, so
a slot priced 8.5 is a discharge candidate. -/
theorem candidate_classification :
    (∀ (params : BatteryStrategyParams) (prices : List PriceSlot) (now : ℚ) (s : PriceSlot),
        (s ∈ chargeCandidates params (futureFilter prices now) ↔
          s ∈ futureFilter prices now ∧
            params.LastPriceCharged - s.Price ≥ params.Epsilon)
      ∧ (s ∈ dischargeCandidates params (futureFilter prices now) ↔
          s ∈ futureFilter prices now ∧
            s.Price ≥ min (params.LastPriceCharged + params.Epsilon) 8))
    ∧ dischargeThreshold ⟨"LV", 0, 0, 10, 5, "m", "c"⟩ = 8
    ∧ dischargeCandidates ⟨"LV", 0, 0, 10, 5, "m", "c"⟩ [⟨0, 17/2⟩] = [⟨0, 17/2⟩]
    ∧ chargeCandidates ⟨"LV", 0, 0, 20, 3, "m", "c"⟩ [⟨0, 10⟩] = [⟨0, 10⟩]
    ∧ dischargeCandidates ⟨"LV", 0, 0, 20, 3, "m", "c"⟩ [⟨0, 10⟩] = [⟨0, 10⟩] := by
  refine ⟨?_, by with_unfolding_all decide, by with_unfolding_all decide,
    by with_unfolding_all decide, by with_unfolding_all decide⟩
  intro params prices now s
  have hmin : dischargeThreshold params = min (params.LastPriceCharged + params.Epsilon) 8 := by
    unfold dischargeThreshold
    rcases le_or_lt (params.LastPriceCharged + params.Epsilon) 8 with h | h
    · rw [if_neg (not_lt.mpr h), min_eq_left h]
    · rw [if_pos h, min_eq_right h.le]
  constructor
  · simp [chargeCandidates, List.mem_filter]
  · simp [dischargeCandidates, List.mem_filter, hmin]

/-- C8: when no input slot lies at or after `now` the build returns the
degenerate schedule: null resolution, empty slot lists and empty (non-nil)
interval lists; and the future filter retains exactly the slots with
`timestamp >= now` (inclusive). -/
theorem empty_future_schedule :
    (∀ (prices : List PriceSlot) (params : BatteryStrategyParams) (now : ℚ),
        (∀ p ∈ prices, p.Timestamp < now) →
        BuildBatterySchedule prices params now =
          some ⟨params.Area, params.LastPriceCharged, params.Epsilon,
                none, [], [], some [], some []⟩)
    ∧ ∀ (prices : List PriceSlot) (now : ℚ),
        futureFilter prices now = prices.filter fun p => decide (now ≤ p.Timestamp) := by
  constructor
  · intro prices params now h
    have hfe : futureFilter prices now = [] := by
      unfold futureFilter
      rw [List.filter_eq_nil_iff]
      intro a ha
      simp [h a ha]
    exact build_empty_future hfe
  · intro prices now
    unfold futureFilter
    apply List.filter_congr
    intro a _
    simp only [← decide_not, not_lt]

/-- Witness for C8 at a concrete all-past input. -/
theorem empty_future_schedule_witness :
    BuildBatterySchedule [⟨0, 5⟩] ⟨"LV", 1, 1, 10, 2, "DayAhead", "EUR"⟩ 30 =
      some ⟨"LV", 10, 2, none, [], [], some [], some []⟩ :=
  empty_future_schedule.1 [⟨0, 5⟩] ⟨"LV", 1, 1, 10, 2, "DayAhead", "EUR"⟩ 30 (by decide)

/-- C9 counterexample: market and currency are not carried into the output —
parameter records differing only in market and currency produce identical
schedules, because `ScheduleJSON` has no market or currency field. -/
theorem market_currency_not_in_output_cex :
    BuildBatterySchedule sampleSlots ⟨"LV", 1, 1, 20, 3, "DayAhead", "EUR"⟩ 0 =
      BuildBatterySchedule sampleSlots ⟨"LV", 1, 1, 20, 3, "Intraday", "SEK"⟩ 0 := by
  with_unfolding_all rfl

/-- C9 (amended): area — together with lastPriceCharged and epsilon — is
carried unchanged into the output schedule and is unused by selection;
market and currency have no counterpart in `ScheduleJSON` at all. -/
theorem area_passthrough (prices : List PriceSlot) (params : BatteryStrategyParams)
    (now : ℚ) (s : ScheduleJSON) (h : BuildBatterySchedule prices params now = some s) :
    s.Area = params.Area ∧ s.LastPriceCharged = params.LastPriceCharged ∧
      s.Epsilon = params.Epsilon := by
  rcases build_some_cases h with ⟨_, rfl⟩ | ⟨_, _, _, _, _, _, _, _, _, rfl⟩ <;>
    exact ⟨rfl, rfl, rfl⟩

/-- Witness for the amended C9 at a concrete input. -/
theorem area_passthrough_witness :
    sampleSchedule.Area = "LV" ∧ sampleSchedule.LastPriceCharged = 20 ∧
      sampleSchedule.Epsilon = 3 :=
  area_passthrough sampleSlots sampleParams 0 sampleSchedule (by with_unfolding_all decide)

/-- C10 counterexample: a real 0-minute resolution does occur for a valid
sequence — two slots with equal timestamps infer resolution 0, and the
subsequent slot-budget division by zero has no defined Go result (modelled
as a failed build). -/
theorem zero_resolution_occurs_cex :
    inferResolutionMinutes [⟨0, 1⟩, ⟨0, 2⟩] = 0 ∧
      BuildBatterySchedule [⟨0, 1⟩, ⟨0, 2⟩] ⟨"LV", 1, 1, 10, 2, "DayAhead", "EUR"⟩ 0 = none := by
  with_unfolding_all decide

/-- C10 (amended): whenever the future subset is non-empty and the build
completes, the output resolution is the inferred resolution and is non-null;
a 0 value is still distinguishable from null, but not because 0 cannot be
inferred. -/
theorem resolution_nonnull (prices : List PriceSlot) (params : BatteryStrategyParams)
    (now : ℚ) (s : ScheduleJSON) (hne : futureFilter prices now ≠ [])
    (h : BuildBatterySchedule prices params now = some s) :
    s.ResolutionMinutes = some (inferResolutionMinutes (futureFilter prices now)) ∧
      s.ResolutionMinutes ≠ none := by
  rcases build_some_cases h with ⟨hfe, _⟩ | ⟨_, _, _, _, _, _, _, _, _, rfl⟩
  · exact absurd hfe hne
  · exact ⟨rfl, by simp⟩

/-- Witness for the amended C10 at a concrete input. -/
theorem resolution_nonnull_witness :
    sampleSchedule.ResolutionMinutes =
        some (inferResolutionMinutes (futureFilter sampleSlots 0)) ∧
      sampleSchedule.ResolutionMinutes ≠ none :=
  resolution_nonnull sampleSlots sampleParams 0 sampleSchedule (by decide)
    (by with_unfolding_all decide)

/-- C7 counterexample: with a non-empty future and zero charge candidates the
charge slot list is an empty list, but the charge interval list is a `nil`
slice (JSON `null`), not an empty list. -/
theorem empty_side_interval_nil_cex :
    BuildBatterySchedule flatSlots flatParams 0 = some flatSchedule ∧
      flatSchedule.ChargeSlots = [] ∧ flatSchedule.ChargeIntervals = none := by
  with_unfolding_all decide

/-- C7 (amended): on a side with zero candidates the slot list is an empty
(non-nil) list, while the interval list is the `nil` slice (JSON `null`). -/
theorem empty_side_lists (prices : List PriceSlot) (params : BatteryStrategyParams)
    (now : ℚ) (s : ScheduleJSON) (hne : futureFilter prices now ≠ [])
    (h : BuildBatterySchedule prices params now = some s) :
    (chargeCandidates params (futureFilter prices now) = [] →
       s.ChargeSlots = [] ∧ s.ChargeIntervals = none) ∧
    (dischargeCandidates params (futureFilter prices now) = [] →
       s.DischargeSlots = [] ∧ s.DischargeIntervals = none) := by
  rcases build_some_cases h with ⟨hfe, _⟩ | ⟨_, mc, md, cSel, dSel, hmc, hmd, hct, hdt, rfl⟩
  · exact absurd hfe hne
  · constructor
    · intro hcc
      rw [hcc] at hct
      have hc0 : cSel = [] := truncateCandidates_nil
        (by simpa [sortByPriceAsc, List.insertionSort] using hct)
      subst hc0
      exact ⟨by simp [toSlotJSON, sortByTime, List.insertionSort],
             by simp [groupConsecutiveSlots, sortByTime, List.insertionSort]⟩
    · intro hdc
      rw [hdc] at hdt
      have hd0 : dSel = [] := truncateCandidates_nil
        (by simpa [sortByPriceDesc, List.insertionSort] using hdt)
      subst hd0
      exact ⟨by simp [toSlotJSON, sortByTime, List.insertionSort],
             by simp [groupConsecutiveSlots, sortByTime, List.insertionSort]⟩

/-- Witness for the amended C7 at a concrete input with no charge
candidates. -/
theorem empty_side_lists_witness :
    (chargeCandidates flatParams (futureFilter flatSlots 0) = [] →
       flatSchedule.ChargeSlots = [] ∧ flatSchedule.ChargeIntervals = none) ∧
    (dischargeCandidates flatParams (futureFilter flatSlots 0) = [] →
       flatSchedule.DischargeSlots = [] ∧ flatSchedule.DischargeIntervals = none) :=
  empty_side_lists flatSlots flatParams 0 flatSchedule (by decide)
    (by with_unfolding_all decide)

/-- C6 counterexample: a negative hour budget does not yield a zero slot
budget — `maxChargeHours = -1` at 60-minute resolution gives slot budget
`ceil(-60/60) = -1`, and the truncation `c[:maxSlots]` panics on the
negative bound (modelled as a failed build). -/
theorem negative_budget_panics_cex :
    BuildBatterySchedule [⟨0, 50⟩] ⟨"LV", -1, 0, 0, 0, "DayAhead", "EUR"⟩ 0 = none := by
  with_unfolding_all decide

/-- C6 (amended): the build is total when both hour budgets are non-negative
and the inferred resolution of the future subset is positive; a zero hour
budget yields an empty selection on that side. (Negative hour budgets whose
slot-budget ceiling is negative panic instead — see the counterexample.) -/
theorem totality_nonneg_budgets (prices : List PriceSlot) (params : BatteryStrategyParams)
    (now : ℚ) (hc : 0 ≤ params.MaxChargeHours) (hd : 0 ≤ params.MaxDischargeHours)
    (hres : 0 < inferResolutionMinutes (futureFilter prices now)) :
    (∃ s, BuildBatterySchedule prices params now = some s) ∧
    ∀ s, BuildBatterySchedule prices params now = some s →
      (params.MaxChargeHours = 0 → s.ChargeSlots = []) ∧
      (params.MaxDischargeHours = 0 → s.DischargeSlots = []) := by
  have hne0 : inferResolutionMinutes (futureFilter prices now) ≠ 0 := by omega
  have hcast : (0 : ℚ) ≤ ((inferResolutionMinutes (futureFilter prices now) : ℤ) : ℚ) := by
    exact_mod_cast le_of_lt hres
  constructor
  · by_cases hfe : futureFilter prices now = []
    · exact ⟨_, build_empty_future hfe⟩
    · have hmc := slotsForHours_of_ne (h := params.MaxChargeHours) hne0
      have hmd := slotsForHours_of_ne (h := params.MaxDischargeHours) hne0
      have hmcpos : 0 ≤ ⌈params.MaxChargeHours * 60 /
          ((inferResolutionMinutes (futureFilter prices now) : ℤ) : ℚ)⌉ :=
        Int.ceil_nonneg (div_nonneg (mul_nonneg hc (by norm_num)) hcast)
      have hmdpos : 0 ≤ ⌈params.MaxDischargeHours * 60 /
          ((inferResolutionMinutes (futureFilter prices now) : ℤ) : ℚ)⌉ :=
        Int.ceil_nonneg (div_nonneg (mul_nonneg hd (by norm_num)) hcast)
      obtain ⟨cSel, hct⟩ := truncateCandidates_isSome
        (c := sortByPriceAsc (chargeCandidates params (futureFilter prices now))) hmcpos
      obtain ⟨dSel, hdt⟩ := truncateCandidates_isSome
        (c := sortByPriceDesc (dischargeCandidates params (futureFilter prices now))) hmdpos
      exact ⟨_, build_some_of hfe hmc hmd hct hdt⟩
  · intro s hs
    rcases build_some_cases hs with ⟨_, rfl⟩ | ⟨_, mc, md, cSel, dSel, hmc, hmd, hct, hdt, rfl⟩
    · exact ⟨fun _ => rfl, fun _ => rfl⟩
    · constructor
      · intro hzero
        obtain ⟨-, hmceq⟩ := slotsForHours_eq_some hmc
        have hmc0 : mc = 0 := by
          rw [hmceq, hzero]
          simp
        have hlen := truncateCandidates_length_le hct
        rw [hmc0] at hlen
        have hcnil : cSel = [] := List.eq_nil_of_length_eq_zero (by omega)
        subst hcnil
        simp [toSlotJSON, sortByTime, List.insertionSort]
      · intro hzero
        obtain ⟨-, hmdeq⟩ := slotsForHours_eq_some hmd
        have hmd0 : md = 0 := by
          rw [hmdeq, hzero]
          simp
        have hlen := truncateCandidates_length_le hdt
        rw [hmd0] at hlen
        have hdnil : dSel = [] := List.eq_nil_of_length_eq_zero (by omega)
        subst hdnil
        simp [toSlotJSON, sortByTime, List.insertionSort]

/-- Witness for the amended C6 at a concrete input with zero hour budgets. -/
theorem totality_nonneg_budgets_witness :
    (∃ s, BuildBatterySchedule sampleSlots ⟨"LV", 0, 0, 20, 3, "DayAhead", "EUR"⟩ 0 = some s) ∧
    ∀ s, BuildBatterySchedule sampleSlots ⟨"LV", 0, 0, 20, 3, "DayAhead", "EUR"⟩ 0 = some s →
      ((⟨"LV", 0, 0, 20, 3, "DayAhead", "EUR"⟩ : BatteryStrategyParams).MaxChargeHours = 0 →
        s.ChargeSlots = []) ∧
      ((⟨"LV", 0, 0, 20, 3, "DayAhead", "EUR"⟩ : BatteryStrategyParams).MaxDischargeHours = 0 →
        s.DischargeSlots = []) :=
  totality_nonneg_budgets sampleSlots ⟨"LV", 0, 0, 20, 3, "DayAhead", "EUR"⟩ 0
    (le_refl 0) (le_refl 0) (by with_unfolding_all decide)

/-- C4: with a non-empty future and non-negative hour budgets, the charge
and discharge slot counts in the output never exceed
`ceil(maxHours * 60 / resolutionMinutes)` for the inferred resolution. -/
theorem budget_respected (prices : List PriceSlot) (params : BatteryStrategyParams)
    (now : ℚ) (s : ScheduleJSON)
    (hc : 0 ≤ params.MaxChargeHours) (hd : 0 ≤ params.MaxDischargeHours)
    (hne : futureFilter prices now ≠ [])
    (h : BuildBatterySchedule prices params now = some s) :
    (s.ChargeSlots.length : ℤ) ≤
        ⌈params.MaxChargeHours * 60 /
          ((inferResolutionMinutes (futureFilter prices now) : ℤ) : ℚ)⌉ ∧
    (s.DischargeSlots.length : ℤ) ≤
        ⌈params.MaxDischargeHours * 60 /
          ((inferResolutionMinutes (futureFilter prices now) : ℤ) : ℚ)⌉ := by
  rcases build_some_cases h with ⟨hfe, _⟩ | ⟨_, mc, md, cSel, dSel, hmc, hmd, hct, hdt, rfl⟩
  · exact absurd hfe hne
  · obtain ⟨-, hmceq⟩ := slotsForHours_eq_some hmc
    obtain ⟨-, hmdeq⟩ := slotsForHours_eq_some hmd
    constructor
    · have h1 := truncateCandidates_length_le hct
      have h2 : (toSlotJSON (sortByTime cSel)).length = cSel.length := by
        simp [toSlotJSON, sortByTime, List.length_insertionSort]
      rw [h2, ← hmceq]
      exact h1
    · have h1 := truncateCandidates_length_le hdt
      have h2 : (toSlotJSON (sortByTime dSel)).length = dSel.length := by
        simp [toSlotJSON, sortByTime, List.length_insertionSort]
      rw [h2, ← hmdeq]
      exact h1

/-- Witness for C4 at a concrete input. -/
theorem budget_respected_witness :
    (sampleSchedule.ChargeSlots.length : ℤ) ≤
        ⌈sampleParams.MaxChargeHours * 60 /
          ((inferResolutionMinutes (futureFilter sampleSlots 0) : ℤ) : ℚ)⌉ ∧
    (sampleSchedule.DischargeSlots.length : ℤ) ≤
        ⌈sampleParams.MaxDischargeHours * 60 /
          ((inferResolutionMinutes (futureFilter sampleSlots 0) : ℤ) : ℚ)⌉ :=
  budget_respected sampleSlots sampleParams 0 sampleSchedule
    (by norm_num [sampleParams]) (by norm_num [sampleParams]) (by decide)
    (by with_unfolding_all decide)

theorem timestampDeltas_cons (a b : PriceSlot) (l : List PriceSlot) :
    timestampDeltas (a :: b :: l) =
      (b.Timestamp - a.Timestamp) :: timestampDeltas (b :: l) := rfl

theorem timestampDeltas_const {d : ℚ} : ∀ {l : List PriceSlot},
    l.Chain' (fun a b => b.Timestamp - a.Timestamp = d) →
    timestampDeltas l = List.replicate (l.length - 1) d := by
  intro l
  induction l with
  | nil => intro _; rfl
  | cons a t ih =>
    cases t with
    | nil => intro _; rfl
    | cons b t2 =>
      intro h
      rw [List.chain'_cons] at h
      rw [timestampDeltas_cons, ih h.2, h.1]
      simp [List.replicate_succ]

theorem listMedian_replicate {m : ℕ} (hm : 1 ≤ m) (d : ℚ) :
    listMedian (List.replicate m d) = d := by
  have hsorted : (List.replicate m d).insertionSort (· ≤ ·) = List.replicate m d :=
    List.Sorted.insertionSort_eq (List.pairwise_replicate.mpr (Or.inr (le_refl d)))
  unfold listMedian
  rw [hsorted]
  simp only [List.length_replicate]
  split
  · rename_i hpar
    rw [replicate_getD d m (m / 2 - 1) (by omega), replicate_getD d m (m / 2) (by omega)]
    ring
  · exact replicate_getD d m (m / 2) (by omega)

theorem inferResolution_eq_median {prices : List PriceSlot} (h2 : 2 ≤ prices.length) :
    inferResolutionMinutes prices = goRound (listMedian (timestampDeltas prices)) := by
  unfold inferResolutionMinutes listMedian
  rw [if_neg (by omega)]

/-- C2: the inferred resolution is the statistical median (even count: mean
of the two middle sorted values; odd count: the middle value) of the
consecutive timestamp deltas, rounded per Go `math.Round`; inputs with fewer
than 2 slots give exactly 60; a sequence of 2+ slots spaced at a constant
whole number of `k` minutes gives exactly `k`. -/
theorem resolution_inference_median :
    (∀ prices : List PriceSlot, prices.length < 2 → inferResolutionMinutes prices = 60)
    ∧ (∀ prices : List PriceSlot, 2 ≤ prices.length →
        inferResolutionMinutes prices = goRound (listMedian (timestampDeltas prices)))
    ∧ ∀ (k : ℤ) (prices : List PriceSlot), 2 ≤ prices.length →
        prices.Chain' (fun a b => b.Timestamp - a.Timestamp = (k : ℚ)) →
        inferResolutionMinutes prices = k := by
  refine ⟨?_, ?_, ?_⟩
  · intro prices h
    unfold inferResolutionMinutes
    rw [if_pos h]
  · intro prices h2
    exact inferResolution_eq_median h2
  · intro k prices h2 hchain
    rw [inferResolution_eq_median h2, timestampDeltas_const hchain,
        listMedian_replicate (by omega) ((k : ℚ)), goRound_intCast]

/-- Witness for C2: a constant 15-minute grid infers 15, and a single slot
infers the 60-minute default. -/
theorem resolution_inference_median_witness :
    inferResolutionMinutes [⟨0, 1⟩, ⟨15, 2⟩, ⟨30, 3⟩, ⟨45, 4⟩] = 15 :=
  resolution_inference_median.2.2 15 [⟨0, 1⟩, ⟨15, 2⟩, ⟨30, 3⟩, ⟨45, 4⟩]
    (by decide) (by norm_num [List.chain'_cons])

theorem groupRunsGo_ne_nil (step : ℚ) :
    ∀ (rest : List PriceSlot) (prev : PriceSlot) (group : List PriceSlot)
      (groups : List (List PriceSlot)), groupRunsGo step rest prev group groups ≠ [] := by
  intro rest
  induction rest with
  | nil =>
    intro prev group groups
    simp [groupRunsGo]
  | cons cur rest ih =>
    intro prev group groups
    simp only [groupRunsGo]
    split
    · exact ih cur (group ++ [cur]) groups
    · exact ih cur [cur] (groups ++ [group])

theorem groupRunsGo_flatten (step : ℚ) :
    ∀ (rest : List PriceSlot) (prev : PriceSlot) (group : List PriceSlot)
      (groups : List (List PriceSlot)),
      (groupRunsGo step rest prev group groups).flatten = groups.flatten ++ group ++ rest := by
  intro rest
  induction rest with
  | nil =>
    intro prev group groups
    simp [groupRunsGo]
  | cons cur rest ih =>
    intro prev group groups
    simp only [groupRunsGo]
    split
    · rw [ih]
      simp [List.append_assoc]
    · rw [ih]
      simp [List.append_assoc]

theorem groupRunsGo_runs (step : ℚ) :
    ∀ (rest : List PriceSlot) (prev : PriceSlot) (group : List PriceSlot)
      (groups : List (List PriceSlot)),
      group ≠ [] → group.getLast? = some prev →
      group.Chain' (fun a b => b.Timestamp = a.Timestamp + step) →
      (∀ g ∈ groups, g ≠ [] ∧ g.Chain' (fun a b => b.Timestamp = a.Timestamp + step)) →
      ∀ g ∈ groupRunsGo step rest prev group groups,
        g ≠ [] ∧ g.Chain' (fun a b => b.Timestamp = a.Timestamp + step) := by
  intro rest
  induction rest with
  | nil =>
    intro prev group groups hne hlast hchain hgroups g hg
    simp only [groupRunsGo] at hg
    rcases List.mem_append.mp hg with h | h
    · exact hgroups g h
    · rw [List.mem_singleton.mp h]
      exact ⟨hne, hchain⟩
  | cons cur rest ih =>
    intro prev group groups hne hlast hchain hgroups g hg
    simp only [groupRunsGo] at hg
    split at hg
    · rename_i hstep
      refine ih cur (group ++ [cur]) groups (by simp) (List.getLast?_concat _) ?_ hgroups g hg
      rw [List.chain'_append]
      refine ⟨hchain, List.chain'_singleton _, ?_⟩
      intro x hx y hy
      rw [hlast, Option.mem_some_iff] at hx
      rw [show ([cur] : List PriceSlot).head? = some cur from rfl, Option.mem_some_iff] at hy
      subst hx
      subst hy
      linarith [hstep]
    · rename_i hstep
      refine ih cur [cur] (groups ++ [group]) (by simp) rfl (List.chain'_singleton _) ?_ g hg
      intro g2 hg2
      rcases List.mem_append.mp hg2 with h | h
      · exact hgroups g2 h
      · rw [List.mem_singleton.mp h]
        exact ⟨hne, hchain⟩

theorem groupRunsGo_maximal (step : ℚ) :
    ∀ (rest : List PriceSlot) (prev : PriceSlot) (group : List PriceSlot)
      (groups : List (List PriceSlot)),
      group ≠ [] → group.getLast? = some prev →
      (groups ++ [group]).Chain' (runBoundary step) →
      (groupRunsGo step rest prev group groups).Chain' (runBoundary step) := by
  intro rest
  induction rest with
  | nil =>
    intro prev group groups _ _ h
    simpa [groupRunsGo] using h
  | cons cur rest ih =>
    intro prev group groups hne hlast hchain
    simp only [groupRunsGo]
    split
    · rename_i hstep
      refine ih cur (group ++ [cur]) groups (by simp) (List.getLast?_concat _) ?_
      rw [List.chain'_append] at hchain ⊢
      refine ⟨hchain.1, List.chain'_singleton _, ?_⟩
      intro x hx y hy
      rw [show ([group ++ [cur]] : List (List PriceSlot)).head? = some (group ++ [cur]) from rfl,
          Option.mem_some_iff] at hy
      subst hy
      have hb := hchain.2.2 x hx group
        (by rw [show ([group] : List (List PriceSlot)).head? = some group from rfl]; rfl)
      intro a ha b hb2
      cases group with
      | nil => exact absurd rfl hne
      | cons g0 gt =>
        exact hb a ha b (by simpa using hb2)
    · rename_i hstep
      refine ih cur [cur] (groups ++ [group]) (by simp) rfl ?_
      rw [List.chain'_append]
      refine ⟨hchain, List.chain'_singleton _, ?_⟩
      intro x hx y hy
      rw [List.getLast?_concat, Option.mem_some_iff] at hx
      rw [show ([[cur]] : List (List PriceSlot)).head? = some [cur] from rfl,
          Option.mem_some_iff] at hy
      subst hx
      subst hy
      intro a ha b hb
      rw [hlast, Option.mem_some_iff] at ha
      rw [show ([cur] : List PriceSlot).head? = some cur from rfl, Option.mem_some_iff] at hb
      subst ha
      subst hb
      intro heq
      exact hstep (by rw [heq]; ring)

/-- C3: on a chronologically ascending selection, grouping partitions the
slots into maximal runs of step-consecutive slots (next timestamp = previous
timestamp + one resolution step; any other gap breaks the run), and each
run — singleton included — yields exactly one interval with start = first
timestamp, end = last timestamp + step, avgPrice = arithmetic mean. E.g.
slots at 0, 60, 120 and 300 minutes at resolution 60 give intervals
(0, 180, mean of the first three prices) and (300, 360, last price). -/
theorem interval_grouping_partition :
    (∀ (slots : List PriceSlot) (res : ℤ),
        slots ≠ [] →
        slots.Chain' (fun a b => a.Timestamp < b.Timestamp) →
        groupConsecutiveSlots slots res =
            some ((groupRuns slots ((res : ℚ))).map (intervalOfRun ((res : ℚ))))
          ∧ (groupRuns slots ((res : ℚ))).flatten = slots
          ∧ (∀ g ∈ groupRuns slots ((res : ℚ)),
              g ≠ [] ∧ g.Chain' (fun a b => b.Timestamp = a.Timestamp + ((res : ℚ))))
          ∧ (groupRuns slots ((res : ℚ))).Chain' (runBoundary ((res : ℚ))))
    ∧ ∀ p0 p1 p2 p3 : ℚ,
        groupConsecutiveSlots [⟨0, p0⟩, ⟨60, p1⟩, ⟨120, p2⟩, ⟨300, p3⟩] 60 =
          some [⟨0, 180, (p0 + p1 + p2) / 3⟩, ⟨300, 360, p3⟩] := by
  constructor
  · intro slots res hne hasc
    obtain ⟨s0, rest, rfl⟩ : ∃ s0 rest, slots = s0 :: rest := by
      cases slots with
      | nil => exact absurd rfl hne
      | cons a t => exact ⟨a, t, rfl⟩
    have hruns : ∀ g ∈ groupRuns (s0 :: rest) ((res : ℚ)),
        g ≠ [] ∧ g.Chain' (fun a b => b.Timestamp = a.Timestamp + ((res : ℚ))) := by
      intro g hg
      exact groupRunsGo_runs ((res : ℚ)) rest s0 [s0] [] (by simp) rfl
        (List.chain'_singleton _) (by simp) g hg
    refine ⟨?_, ?_, hruns, ?_⟩
    · have hsort : sortByTime (s0 :: rest) = s0 :: rest := by
        apply List.Sorted.insertionSort_eq
        have hpw : List.Pairwise (fun a b : PriceSlot => a.Timestamp < b.Timestamp)
            (s0 :: rest) := by
          haveI : IsTrans PriceSlot (fun a b => a.Timestamp < b.Timestamp) :=
            ⟨fun a b c hab hbc => lt_trans hab hbc⟩
          exact List.chain'_iff_pairwise.mp hasc
        exact hpw.imp le_of_lt
      have hgr : groupRuns (s0 :: rest) ((res : ℚ)) ≠ [] :=
        groupRunsGo_ne_nil ((res : ℚ)) rest s0 [s0] []
      have hfilter : ((groupRuns (s0 :: rest) ((res : ℚ))).filter fun g => !g.isEmpty) =
          groupRuns (s0 :: rest) ((res : ℚ)) := by
        rw [List.filter_eq_self]
        intro g hg
        simpa using (hruns g hg).1
      simp only [groupConsecutiveSlots]
      rw [if_neg (by simp), hsort, hfilter,
          if_neg (by simpa [List.map_eq_nil_iff] using hgr)]
    · simpa using groupRunsGo_flatten ((res : ℚ)) rest s0 [s0] []
    · exact groupRunsGo_maximal ((res : ℚ)) rest s0 [s0] [] (by simp) rfl
        (by simpa using List.chain'_singleton ([s0] : List PriceSlot))
  · intro p0 p1 p2 p3
    have hsort : sortByTime [⟨0, p0⟩, ⟨60, p1⟩, ⟨120, p2⟩, ⟨300, p3⟩] =
        [⟨0, p0⟩, ⟨60, p1⟩, ⟨120, p2⟩, ⟨300, p3⟩] := by
      apply List.Sorted.insertionSort_eq
      norm_num [List.pairwise_cons]
    simp only [groupConsecutiveSlots]
    rw [if_neg (by simp), hsort]
    norm_num [groupRuns, groupRunsGo, intervalOfRun, List.sum_cons, List.sum_nil]
    exact ⟨by simp, by ring⟩

/-- Witness for C3 at a concrete ascending selection. -/
theorem interval_grouping_partition_witness :
    groupConsecutiveSlots [⟨0, 3⟩, ⟨60, 5⟩, ⟨120, 7⟩, ⟨300, 11⟩] 60 =
        some ((groupRuns [⟨0, 3⟩, ⟨60, 5⟩, ⟨120, 7⟩, ⟨300, 11⟩] (((60 : ℤ) : ℚ))).map
          (intervalOfRun (((60 : ℤ) : ℚ))))
      ∧ (groupRuns [⟨0, 3⟩, ⟨60, 5⟩, ⟨120, 7⟩, ⟨300, 11⟩] (((60 : ℤ) : ℚ))).flatten =
          [⟨0, 3⟩, ⟨60, 5⟩, ⟨120, 7⟩, ⟨300, 11⟩]
      ∧ (∀ g ∈ groupRuns [⟨0, 3⟩, ⟨60, 5⟩, ⟨120, 7⟩, ⟨300, 11⟩] (((60 : ℤ) : ℚ)),
          g ≠ [] ∧ g.Chain' (fun a b => b.Timestamp = a.Timestamp + (((60 : ℤ) : ℚ))))
      ∧ (groupRuns [⟨0, 3⟩, ⟨60, 5⟩, ⟨120, 7⟩, ⟨300, 11⟩] (((60 : ℤ) : ℚ))).Chain'
          (runBoundary (((60 : ℤ) : ℚ))) :=
  interval_grouping_partition.1 [⟨0, 3⟩, ⟨60, 5⟩, ⟨120, 7⟩, ⟨300, 11⟩] 60
    (by decide) (by norm_num [List.chain'_cons])

end Gordpool
